import Mathlib

/-!
Verification of a one-dimensional cellular-automaton pattern classifier.

The program represents a line of filled/blank cells as a run-length list
plus a horizontal offset (`Pattern`), precomputes a 32-entry transition
table (`calculateStates`), evolves a line by sliding a 5-bit buffer across
the decoded bit stream (`read`, with a run-skip shortcut), and classifies
the long-term behaviour of an initial line (`solve`).

All definitions below are shallow embeddings of the corresponding source
functions; machine integers are modelled as `Nat`/`Int` with explicit
masking, Python's heterogeneous sets as lists of a sum type `PyObj`, and
the raising of `ValueError` as `Except Unit`.
-/

/-- The transition table: for a 5-bit window value `i` (built from the
string `format(i, '05b')`), the number of filled cells and the center
character (bit index 2) decide the output.  Faithful to `calculateStates`
in the source for all dictionary keys `0 ≤ i < 32`. -/
def calculateStates (i : ℕ) : Bool :=
  let filled := i / 16 % 2 + i / 8 % 2 + i / 4 % 2 + i / 2 % 2 + i % 2
  if i / 4 % 2 = 0 then filled == 2 || filled == 3
  else filled == 3 || filled == 5

/-- A pattern of filled and blank squares: run lengths (even indexes are
filled runs, odd indexes blank runs), the offset of the leading filled
square, and the builder's transient run counter. -/
structure Pattern where
  runs : List ℕ
  offset : ℤ
  count : ℕ
deriving DecidableEq

/-- `Pattern.insert`: append `steps` copies of `bit` to the line being
built.  Leading blanks are disregarded; a kind change flushes the current
run counter onto `runs`. -/
def Pattern.insert (p : Pattern) (bit : Bool) (steps : ℕ) : Pattern :=
  if p.runs = [] ∧ p.count = 0 ∧ bit = false then p
  else if (p.runs.length % 2 = 0 ∧ bit = false) ∨ (¬p.runs.length % 2 = 0 ∧ bit = true) then
    Pattern.mk (p.runs ++ [p.count]) p.offset steps
  else Pattern.mk p.runs p.offset (p.count + steps)

/-- `Pattern.complete`: flush the hanging run of filled squares, if any,
and return the finalized pattern. -/
def Pattern.complete (p : Pattern) : Pattern :=
  if p.runs.length % 2 = 0 then Pattern.mk (p.runs ++ [p.count]) p.offset 0
  else p

/-- One slide of the 5-bit buffer: `(buffer << 1 | bit) & 0b11111`. -/
def push (buffer bit : ℕ) : ℕ := (buffer <<< 1 ||| bit) &&& 31

/-- One slide of the buffer in the final drain loop:
`(buffer << 1) & 0b11110`. -/
def drainStep (buffer : ℕ) : ℕ := (buffer <<< 1) &&& 30

/-- Insert an output bit into the new pattern and, unless a first filled
square has been written, increment the new pattern's offset — the body of
the evolver's inner loop after the buffer update. -/
def insOff (p : Pattern) (v : Bool) (steps : ℕ) : Pattern :=
  let p1 := p.insert v steps
  if p1.runs = [] ∧ p1.count = 0 then Pattern.mk p1.runs (p1.offset + steps) p1.count
  else p1

/-- The evolver's inner `while run > 0` loop, with the run-skip shortcut:
if `bit + buffer` is `0` or `32` the whole remaining run is consumed in
one step. -/
def readRun (states : ℕ → Bool) (bit : ℕ) : ℕ → ℕ → Pattern → ℕ × Pattern
  | 0, buffer, p => (buffer, p)
  | r + 1, buffer, p =>
    let buffer' := push buffer bit
    if bit + buffer' = 0 ∨ bit + buffer' = 32 then
      (buffer', insOff p (states buffer') (r + 1))
    else
      readRun states bit r buffer' (insOff p (states buffer') 1)

/-- The evolver's inner loop without the run-skip shortcut: the bit-by-bit
reference simulation. -/
def readRunNaive (states : ℕ → Bool) (bit : ℕ) : ℕ → ℕ → Pattern → ℕ × Pattern
  | 0, buffer, p => (buffer, p)
  | r + 1, buffer, p =>
    let buffer' := push buffer bit
    readRunNaive states bit r buffer' (insOff p (states buffer') 1)

/-- The evolver's outer loop over the input's runs, alternating the
current bit after each run. -/
def readRuns (states : ℕ → Bool) : List ℕ → ℕ → ℕ → Pattern → ℕ × Pattern
  | [], _, buffer, p => (buffer, p)
  | run :: rest, bit, buffer, p =>
    let bp := readRun states bit run buffer p
    readRuns states rest ((bit + 1) % 2) bp.1 bp.2

/-- Outer loop of the bit-by-bit reference simulation. -/
def readRunsNaive (states : ℕ → Bool) : List ℕ → ℕ → ℕ → Pattern → ℕ × Pattern
  | [], _, buffer, p => (buffer, p)
  | run :: rest, bit, buffer, p =>
    let bp := readRunNaive states bit run buffer p
    readRunsNaive states rest ((bit + 1) % 2) bp.1 bp.2

/-- The final `while buffer > 0` drain loop, with explicit fuel.  The
buffer is always below 32, and `drainStep` zeroes any such buffer within
five iterations, so fuel 6 is enough (`drain_fuel_stable` below). -/
def drain (states : ℕ → Bool) : ℕ → ℕ → Pattern → Pattern
  | 0, _, p => p
  | fuel + 1, buffer, p =>
    if buffer = 0 then p
    else drain states fuel (drainStep buffer) (p.insert (states (drainStep buffer)) 1)

/-- `read`: compute the next generation of `pattern`. -/
def read (pattern : Pattern) (states : ℕ → Bool) : Pattern :=
  let bp := readRuns states pattern.runs 1 0 (Pattern.mk [] (pattern.offset - 2) 0)
  (drain states 6 bp.1 bp.2).complete

/-- Reference evolver: identical to `read` except that the inner loop
consumes every run bit by bit, never taking the run-skip shortcut. -/
def readNaive (pattern : Pattern) (states : ℕ → Bool) : Pattern :=
  let bp := readRunsNaive states pattern.runs 1 0 (Pattern.mk [] (pattern.offset - 2) 0)
  (drain states 6 bp.1 bp.2).complete

/-- `toPattern`'s character loop: a character other than `#` or `.`
raises, every other character is inserted as a single cell. -/
def toPatternGo : List Char → Pattern → Except Unit Pattern
  | [], p => Except.ok p.complete
  | c :: cs, p =>
    if c ≠ '#' ∧ c ≠ '.' then Except.error ()
    else toPatternGo cs (p.insert (c == '#') 1)

/-- `toPattern`: parse a raw text line into a finalized `Pattern`. -/
def toPattern (input : List Char) : Except Unit Pattern :=
  toPatternGo input (Pattern.mk [] 0 0)

/-- A Python value stored in one of `solve`'s sets: an integer or a tuple
of integers.  (`lines = set(t)` puts the *elements* of the tuple `t` into
the set, while `lines.add(t)` later adds tuples, so the sets are
heterogeneous.) -/
inductive PyObj
  | int : ℤ → PyObj
  | tup : List ℤ → PyObj
deriving DecidableEq

/-- The tuple `(off,) + tuple(runs)`. -/
def lineTuple (off : ℤ) (runs : List ℕ) : PyObj :=
  PyObj.tup (off :: runs.map Int.ofNat)

/-- `set(t)` for `t = (0,) + tuple(runs)`: the set of the tuple's integer
elements (membership modelled by list membership). -/
def seedSet (runs : List ℕ) : List PyObj :=
  ((0 : ℤ) :: runs.map Int.ofNat).map PyObj.int

/-- `solve`'s classification loop, also counting invocations of `read`. -/
def solveGo (states : ℕ → Bool) : ℕ → Pattern → List PyObj → List PyObj → String × ℕ
  | 0, _, _, _ => ("other", 0)
  | n + 1, pattern, lines, patterns =>
    let pattern' := read pattern states
    if pattern'.runs.headI = 0 then ("vanishing", 1)
    else
      let t := lineTuple pattern'.offset pattern'.runs
      if t ∈ lines then ("blinking", 1)
      else
        let t2 := lineTuple 0 pattern'.runs
        if t2 ∈ patterns then ("gliding", 1)
        else
          let r := solveGo states n pattern' (t :: lines) (t2 :: patterns)
          (r.1, r.2 + 1)

/-- `solve`: classify the long-term behaviour of `pattern` within 100
generations. -/
def solve (pattern : Pattern) (states : ℕ → Bool) : String :=
  (solveGo states 100 pattern (seedSet pattern.runs) (seedSet pattern.runs)).1

/-- Whether one of the vanish/blink/glide conditions fires within the
given number of generations — the same recursion as `solveGo`, recording
only whether any classification condition ever triggers. -/
def triggersWithin (states : ℕ → Bool) : ℕ → Pattern → List PyObj → List PyObj → Bool
  | 0, _, _, _ => false
  | n + 1, pattern, lines, patterns =>
    let pattern' := read pattern states
    if pattern'.runs.headI = 0 then true
    else
      let t := lineTuple pattern'.offset pattern'.runs
      if t ∈ lines then true
      else
        let t2 := lineTuple 0 pattern'.runs
        if t2 ∈ patterns then true
        else triggersWithin states n pattern' (t :: lines) (t2 :: patterns)

/-! ## Semantic notions used to state the claims -/

/-- Decode a run-length list into the bit stream it stands for, the first
run having kind `b`. -/
def decodeRuns : List ℕ → Bool → List Bool
  | [], _ => []
  | r :: rest, b => List.replicate r b ++ decodeRuns rest (!b)

/-- The kind of the run that would come after all runs in `rs`, the first
run having kind `b`. -/
def runParity : List ℕ → Bool → Bool
  | [], b => b
  | _ :: rest, b => runParity rest (!b)

/-- The cell at absolute position `x` of a finite bit list `l` laid out
from position `o`; every position outside the list is blank. -/
def lineOf (l : List Bool) (o : ℤ) (x : ℤ) : Bool :=
  if x < o then false else l.getD (x - o).toNat false

/-- The line denoted by a pattern: its runs decoded at its offset, all
cells outside the support blank. -/
def decodeFun (p : Pattern) (x : ℤ) : Bool :=
  lineOf (decodeRuns p.runs true) p.offset x

/-- Numeric value of one cell. -/
def bitVal (b : Bool) : ℕ := if b then 1 else 0

/-- The 5-bit neighborhood value of the window centered at `x`: the most
recently entered cell (`x + 2`) occupies the lowest bit. -/
def windowVal (f : ℤ → Bool) (x : ℤ) : ℕ :=
  16 * bitVal (f (x - 2)) + 8 * bitVal (f (x - 1)) + 4 * bitVal (f x) +
    2 * bitVal (f (x + 1)) + bitVal (f (x + 2))

/-- Population count (number of 1 bits), by fuelled binary recursion. -/
def popAux : ℕ → ℕ → ℕ
  | 0, _ => 0
  | fuel + 1, n => if n = 0 then 0 else popAux fuel (n / 2) + n % 2

/-- Population count of a natural number. -/
def popcount (n : ℕ) : ℕ := popAux n n

/-! ## Decompositions of the evolver used in the proofs -/

/-- Slide the buffer across a whole bit list. -/
def pushAll (buffer : ℕ) (s : List Bool) : ℕ :=
  s.foldl (fun v c => push v (bitVal c)) buffer

/-- The table outputs produced while sliding the buffer across `s`. -/
def outs (states : ℕ → Bool) : ℕ → List Bool → List Bool
  | _, [] => []
  | buffer, b :: rest => states (push buffer (bitVal b)) :: outs states (push buffer (bitVal b)) rest

/-- The table outputs produced by the drain loop started at `buffer`. -/
def drainOuts (states : ℕ → Bool) : ℕ → ℕ → List Bool
  | 0, _ => []
  | fuel + 1, buffer =>
    if buffer = 0 then []
    else states (drainStep buffer) :: drainOuts states fuel (drainStep buffer)

/-- Bit-by-bit processing of a decoded bit stream: buffer slide, table
lookup, insert, offset bookkeeping. -/
def feed (states : ℕ → Bool) : List Bool → ℕ → Pattern → ℕ × Pattern
  | [], buffer, p => (buffer, p)
  | b :: rest, buffer, p =>
    feed states rest (push buffer (bitVal b)) (insOff p (states (push buffer (bitVal b))) 1)

/-- Apply the insert-and-adjust-offset step for each bit of `l`. -/
def insertAll (l : List Bool) (p : Pattern) : Pattern :=
  l.foldl (fun q b => insOff q b 1) p

/-- Apply a plain insert (no offset adjustment) for each bit of `l`. -/
def plainAll (l : List Bool) (p : Pattern) : Pattern :=
  l.foldl (fun q b => q.insert b 1) p

/-- The builder is fresh: no run closed, no run in progress. -/
def fresh (p : Pattern) : Prop := p.runs = [] ∧ p.count = 0

instance : DecidablePred fresh := fun p => by
  unfold fresh; infer_instance

/-- The bit stream committed to a mid-construction builder, including the
run in progress. -/
def contentOf (p : Pattern) : List Bool :=
  decodeRuns (p.runs ++ [p.count]) true

/-- The buffer values reachable from an all-blank prehistory while every
table output so far was blank. -/
def SGood (w : ℕ) : Prop :=
  w = 0 ∨ w = 1 ∨ w = 2 ∨ w = 4 ∨ w = 5 ∨ w = 8 ∨ w = 16

instance : DecidablePred SGood := fun w => by
  unfold SGood; infer_instance

/-! ## C2: correctness of the transition table -/

/-- **C2.** For every window value `w` in `[0,31]`, the precomputed
transition table maps `w` to filled iff (the center bit, bit index 2 of
`w`, is 0 and `popcount w` is 2 or 3) or (the center bit is 1 and
`popcount w` is 3 or 5). -/
theorem calculateStates_rule : ∀ w < 32, (calculateStates w = true ↔
    ((Nat.testBit w 2 = false ∧ (popcount w = 2 ∨ popcount w = 3)) ∨
     (Nat.testBit w 2 = true ∧ (popcount w = 3 ∨ popcount w = 5)))) := by
  decide

/-- Witness for `calculateStates_rule` at the concrete window 12. -/
theorem calculateStates_rule_witness : (12 : ℕ) < 32 ∧ (calculateStates 12 = true ↔
    ((Nat.testBit 12 2 = false ∧ (popcount 12 = 2 ∨ popcount 12 = 3)) ∨
     (Nat.testBit 12 2 = true ∧ (popcount 12 = 3 ∨ popcount 12 = 5)))) :=
  ⟨by decide, calculateStates_rule 12 (by decide)⟩

/-! ## C4: the seeding of `solve`'s sets -/

/-- **C4 (code bug).** `solve` seeds its sets with `set(t)` where `t` is
the tuple `(0,) + tuple(runs)`: the resulting set holds the tuple's
integer *elements*, not the tuple itself, so for the initial pattern with
`runs = [1]` the tuple `(0, 1)` is not a member of either seeded set. -/
theorem solve_seed_misses_tuple :
    seedSet [1] = [PyObj.int 0, PyObj.int 1] ∧ lineTuple 0 [1] ∉ seedSet [1] := by
  decide

/-! ## C5: parsing examples and offset handling -/

/-- **C5 (counterexample).** Parsing `"..#.#.."` yields `runs = [1,1,1]`
but offset 0, not 2: `toPattern` discards leading blanks without touching
the offset. -/
theorem toPattern_offset_zero_cex :
    ∃ p, toPattern "..#.#..".toList = Except.ok p ∧
      p.runs = [1, 1, 1] ∧ p.offset = 0 ∧ (0 : ℤ) ≠ 2 :=
  ⟨Pattern.mk [1, 1, 1] 0 2, rfl, rfl, rfl, by decide⟩

/-- **C5 (amended).** Parsing `"#..##"` yields `runs = [1,2,2]`,
`offset = 0`; parsing `"..#.#.."` yields `runs = [1,1,1]` and
`offset = 0`: leading blanks are discarded without incrementing the
offset (the per-cell offset increment happens only inside `read`), and
trailing blanks stay in the transient `count` field, never in `runs`. -/
theorem toPattern_examples :
    toPattern "#..##".toList = Except.ok (Pattern.mk [1, 2, 2] 0 0) ∧
    toPattern "..#.#..".toList = Except.ok (Pattern.mk [1, 1, 1] 0 2) :=
  ⟨rfl, rfl⟩

/-! ## C9: the transient `count` accumulator -/

/-- **C9 (counterexample).** Inserting a filled cell then a blank cell and
completing leaves `count = 1` (the pending trailing blank run), not 0. -/
theorem complete_count_nonzero_cex :
    ((((Pattern.mk [] 0 0).insert true 1).insert false 1).complete).count ≠ 0 := by
  decide

/-- **C9 (amended).** `complete` zeroes the `count` accumulator exactly
when it flushes a hanging filled run, i.e. whenever construction ended
with an even number of closed runs; a pattern completed in that state
always carries `count = 0`. -/
theorem complete_count_zero (p : Pattern) (h : p.runs.length % 2 = 0) :
    (p.complete).count = 0 := by
  unfold Pattern.complete
  rw [if_pos h]

/-- Witness for `complete_count_zero` at a concrete builder state. -/
theorem complete_count_zero_witness :
    ([] : List ℕ).length % 2 = 0 ∧ ((Pattern.mk [] 0 5).complete).count = 0 :=
  ⟨by decide, complete_count_zero (Pattern.mk [] 0 5) (by decide)⟩

/-! ## C8: parse errors -/

theorem toPatternGo_error_iff : ∀ (cs : List Char) (p : Pattern),
    (toPatternGo cs p = Except.error ()) ↔ ∃ c ∈ cs, c ≠ '#' ∧ c ≠ '.' := by
  intro cs
  induction cs with
  | nil => intro p; simp [toPatternGo]
  | cons a cs ih =>
    intro p
    by_cases h : a ≠ '#' ∧ a ≠ '.'
    · simp only [toPatternGo, if_pos h]
      constructor
      · intro _; exact ⟨a, List.mem_cons_self a cs, h⟩
      · intro _; trivial
    · simp only [toPatternGo, if_neg h]
      rw [ih]
      constructor
      · rintro ⟨c, hc, hbad⟩; exact ⟨c, List.mem_cons_of_mem a hc, hbad⟩
      · rintro ⟨c, hc, hbad⟩
        rcases List.mem_cons.mp hc with rfl | hc
        · exact absurd hbad h
        · exact ⟨c, hc, hbad⟩

/-- **C8.** `toPattern` raises exactly when the input contains a character
other than `#` and `.`; on every input made of `#` and `.` only, it
returns a pattern without raising. -/
theorem toPattern_error_iff (s : List Char) :
    ((toPattern s = Except.error ()) ↔ ∃ c ∈ s, c ≠ '#' ∧ c ≠ '.') ∧
    (toPattern s = Except.error () ∨ ∃ p, toPattern s = Except.ok p) := by
  refine ⟨toPatternGo_error_iff s (Pattern.mk [] 0 0), ?_⟩
  cases h : toPattern s with
  | error e => cases e; exact Or.inl rfl
  | ok p => exact Or.inr ⟨p, rfl⟩

/-! ## List and line helper lemmas -/

theorem getD_all_false (l : List Bool) (i : ℕ) (h : ∀ b ∈ l, b = false) :
    l.getD i false = false := by
  induction l generalizing i with
  | nil => simp
  | cons a t ih =>
    cases i with
    | zero => simpa using h a (List.mem_cons_self a t)
    | succ j => simpa using ih j (fun b hb => h b (List.mem_cons_of_mem a hb))

theorem getD_replicate_false (k i : ℕ) : (List.replicate k false).getD i false = false :=
  getD_all_false _ _ (by simp)

theorem lineOf_neg (l : List Bool) (o x : ℤ) (h : x < o) : lineOf l o x = false := by
  simp [lineOf, if_pos h]

theorem lineOf_nonneg (l : List Bool) (o x : ℤ) (h : o ≤ x) :
    lineOf l o x = l.getD (x - o).toNat false := by
  simp [lineOf, if_neg (by omega : ¬x < o)]

theorem lineOf_nil (o x : ℤ) : lineOf [] o x = false := by
  by_cases h : x < o
  · exact lineOf_neg _ _ _ h
  · rw [lineOf_nonneg _ _ _ (by omega)]; simp

theorem lineOf_all_false (l : List Bool) (o x : ℤ) (h : ∀ b ∈ l, b = false) :
    lineOf l o x = false := by
  by_cases hx : x < o
  · exact lineOf_neg _ _ _ hx
  · rw [lineOf_nonneg _ _ _ (by omega)]; exact getD_all_false _ _ h

theorem getD_append_falsepad (l : List Bool) (k i : ℕ) :
    (l ++ List.replicate k false).getD i false = l.getD i false := by
  by_cases hi : i < l.length
  · exact List.getD_append l _ false i hi
  · rw [List.getD_append_right l _ false i (by omega), getD_replicate_false,
      List.getD_eq_default l false (by omega)]

theorem lineOf_append_replicate_false (l : List Bool) (k : ℕ) (o x : ℤ) :
    lineOf (l ++ List.replicate k false) o x = lineOf l o x := by
  by_cases hx : x < o
  · rw [lineOf_neg _ _ _ hx, lineOf_neg _ _ _ hx]
  · rw [lineOf_nonneg _ _ _ (by omega), lineOf_nonneg _ _ _ (by omega),
      getD_append_falsepad]

theorem lineOf_replicate_false_append (k : ℕ) (l : List Bool) (o x : ℤ) :
    lineOf (List.replicate k false ++ l) o x = lineOf l (o + k) x := by
  by_cases hx : x < o
  · rw [lineOf_neg _ _ _ hx, lineOf_neg _ _ _ (by omega)]
  · by_cases h2 : x < o + k
    · rw [lineOf_neg _ _ _ h2, lineOf_nonneg _ _ _ (by omega)]
      rw [List.getD_append _ l false _ (by simp; omega), getD_replicate_false]
    · rw [lineOf_nonneg _ _ _ (by omega), lineOf_nonneg _ _ _ (by omega)]
      rw [List.getD_append_right _ l false _ (by simp; omega)]
      congr 1
      simp
      omega

/-! ## Run-length encoding lemmas -/

theorem runParity_eq (rs : List ℕ) (b : Bool) :
    runParity rs b = if rs.length % 2 = 0 then b else !b := by
  induction rs generalizing b with
  | nil => simp [runParity]
  | cons r t ih =>
    show runParity t (!b) = _
    rw [ih]
    by_cases ht : t.length % 2 = 0
    · rw [if_pos ht, if_neg (by simp; omega)]
    · rw [if_neg ht, if_pos (by simp; omega), Bool.not_not]

theorem decodeRuns_append (rs : List ℕ) (c : ℕ) (b : Bool) :
    decodeRuns (rs ++ [c]) b = decodeRuns rs b ++ List.replicate c (runParity rs b) := by
  induction rs generalizing b with
  | nil => simp [decodeRuns, runParity]
  | cons r t ih =>
    show List.replicate r b ++ decodeRuns (t ++ [c]) (!b) = _
    rw [ih]
    simp [decodeRuns, runParity, List.append_assoc]

/-! ## Builder state lemmas -/

theorem insert_disregard (p : Pattern) (k : ℕ) (h1 : p.runs = []) (h2 : p.count = 0) :
    p.insert false k = p := by
  simp [Pattern.insert, h1, h2]

theorem insert_flush (p : Pattern) (b : Bool) (k : ℕ)
    (hnd : ¬(p.runs = [] ∧ p.count = 0 ∧ b = false))
    (hfl : (p.runs.length % 2 = 0 ∧ b = false) ∨ (¬p.runs.length % 2 = 0 ∧ b = true)) :
    p.insert b k = Pattern.mk (p.runs ++ [p.count]) p.offset k := by
  unfold Pattern.insert
  rw [if_neg hnd, if_pos hfl]

theorem insert_noflush (p : Pattern) (b : Bool) (k : ℕ)
    (hnd : ¬(p.runs = [] ∧ p.count = 0 ∧ b = false))
    (hfl : ¬((p.runs.length % 2 = 0 ∧ b = false) ∨ (¬p.runs.length % 2 = 0 ∧ b = true))) :
    p.insert b k = Pattern.mk p.runs p.offset (p.count + k) := by
  unfold Pattern.insert
  rw [if_neg hnd, if_neg hfl]

theorem insert_offset (p : Pattern) (b : Bool) (k : ℕ) : (p.insert b k).offset = p.offset := by
  unfold Pattern.insert
  split
  · rfl
  · split <;> rfl

theorem insert_nonfresh (p : Pattern) (b : Bool) (k : ℕ) (h : ¬fresh p) :
    ¬fresh (p.insert b k) := by
  have hnd : ¬(p.runs = [] ∧ p.count = 0 ∧ b = false) := fun hh => h ⟨hh.1, hh.2.1⟩
  by_cases hfl : (p.runs.length % 2 = 0 ∧ b = false) ∨ (¬p.runs.length % 2 = 0 ∧ b = true)
  · rw [insert_flush p b k hnd hfl]
    intro hf
    exact List.append_ne_nil_of_right_ne_nil p.runs (by simp) hf.1
  · rw [insert_noflush p b k hnd hfl]
    intro hf
    have h1 : p.runs = [] := hf.1
    have h2 : p.count + k = 0 := hf.2
    exact h ⟨h1, by omega⟩

theorem insOff_nonfresh (p : Pattern) (b : Bool) (h : ¬fresh p) :
    insOff p b 1 = p.insert b 1 := by
  unfold insOff
  exact if_neg (insert_nonfresh p b 1 h)

theorem contentOf_insert (p : Pattern) (b : Bool) (h : ¬fresh p) :
    contentOf (p.insert b 1) = contentOf p ++ [b] := by
  have hnd : ¬(p.runs = [] ∧ p.count = 0 ∧ b = false) := fun hh => h ⟨hh.1, hh.2.1⟩
  by_cases hfl : (p.runs.length % 2 = 0 ∧ b = false) ∨ (¬p.runs.length % 2 = 0 ∧ b = true)
  · rw [insert_flush p b 1 hnd hfl]
    show decodeRuns ((p.runs ++ [p.count]) ++ [1]) true = _
    rw [decodeRuns_append, runParity_eq]
    have : List.replicate 1 (if (p.runs ++ [p.count]).length % 2 = 0 then true else !true) = [b] := by
      rcases hfl with ⟨he, hb⟩ | ⟨ho, hb⟩
      · rw [if_neg (by simp; omega), hb]; rfl
      · rw [if_pos (by simp; omega), hb]; rfl
    rw [this]
    rfl
  · rw [insert_noflush p b 1 hnd hfl]
    show decodeRuns (p.runs ++ [p.count + 1]) true = decodeRuns (p.runs ++ [p.count]) true ++ [b]
    rw [decodeRuns_append, decodeRuns_append, List.replicate_succ', ← List.append_assoc]
    have : runParity p.runs true = b := by
      rw [runParity_eq]
      push_neg at hfl
      by_cases he : p.runs.length % 2 = 0
      · rw [if_pos he]
        cases b
        · exact absurd rfl (hfl.1 he)
        · rfl
      · rw [if_neg he]
        cases b
        · rfl
        · exact absurd rfl (hfl.2 he)
    rw [this]

theorem insertAll_append (a b : List Bool) (p : Pattern) :
    insertAll (a ++ b) p = insertAll b (insertAll a p) := by
  unfold insertAll
  exact List.foldl_append _ _ _ _

/-- The main builder characterization: once a first filled cell has been
committed, inserting the bits of `l` one at a time and completing yields a
pattern that decodes, at the (already frozen) offset, to the committed
content followed by `l`. -/
theorem insertAll_complete_decode : ∀ (l : List Bool) (p : Pattern), ¬fresh p →
    ∀ x, decodeFun ((insertAll l p).complete) x = lineOf (contentOf p ++ l) p.offset x := by
  intro l
  induction l with
  | nil =>
    intro p _ x
    show decodeFun p.complete x = lineOf (contentOf p ++ []) p.offset x
    rw [List.append_nil]
    unfold Pattern.complete
    by_cases hf : p.runs.length % 2 = 0
    · rw [if_pos hf]
      rfl
    · rw [if_neg hf]
      show lineOf (decodeRuns p.runs true) p.offset x = lineOf (decodeRuns (p.runs ++ [p.count]) true) p.offset x
      rw [decodeRuns_append, runParity_eq, if_neg hf]
      rw [show (!true) = false from rfl, lineOf_append_replicate_false]
  | cons b t ih =>
    intro p h x
    show decodeFun ((insertAll t (insOff p b 1)).complete) x = lineOf (contentOf p ++ b :: t) p.offset x
    rw [insOff_nonfresh p b h]
    rw [ih (p.insert b 1) (insert_nonfresh p b 1 h) x]
    rw [contentOf_insert p b h, insert_offset]
    simp [List.append_assoc]

theorem insertAll_replicate_false (k : ℕ) (o : ℤ) :
    insertAll (List.replicate k false) (Pattern.mk [] o 0) = Pattern.mk [] (o + k) 0 := by
  induction k generalizing o with
  | zero => simp [insertAll]
  | succ k ih =>
    rw [List.replicate_succ]
    show insertAll (List.replicate k false) (insOff (Pattern.mk [] o 0) false 1) = _
    have h1 : insOff (Pattern.mk [] o 0) false 1 = Pattern.mk [] (o + 1) 0 := by
      rw [insOff, insert_disregard _ 1 rfl rfl]
      rfl
    rw [h1, ih]
    congr 1
    push_cast
    ring

theorem dropWhile_head_not (q : Bool → Bool) :
    ∀ (l : List Bool) (b : Bool) (rest : List Bool), l.dropWhile q = b :: rest → q b = false := by
  intro l
  induction l with
  | nil => intro b rest h; simp [List.dropWhile] at h
  | cons a t ih =>
    intro b rest h
    rw [List.dropWhile_cons] at h
    split at h
    · exact ih b rest h
    · next hq =>
      cases h
      simpa using hq

/-- The full builder characterization: inserting the bits of `l` into a
fresh builder at base offset `o` (each leading blank advancing the
offset) and completing yields a pattern that decodes to `l` laid out from
`o`. -/
theorem insertAll_decode (l : List Bool) (o x : ℤ) :
    decodeFun ((insertAll l (Pattern.mk [] o 0)).complete) x = lineOf l o x := by
  have hsplit : l.takeWhile (fun c => !c) ++ l.dropWhile (fun c => !c) = l :=
    List.takeWhile_append_dropWhile _ _
  set k := (l.takeWhile (fun c => !c)).length with hk
  have htw : l.takeWhile (fun c => !c) = List.replicate k false := by
    rw [List.eq_replicate_iff]
    refine ⟨hk.symm, fun b hb => ?_⟩
    have := List.mem_takeWhile_imp hb
    simpa using this
  cases hd : l.dropWhile (fun c => !c) with
  | nil =>
    have hl : l = List.replicate k false := by
      rw [← htw, ← List.append_nil (l.takeWhile fun c => !c), ← hd]
      exact hsplit.symm
    rw [hl, insertAll_replicate_false]
    have hcmp : (Pattern.mk [] (o + k) 0).complete = Pattern.mk [0] (o + k) 0 := by
      simp [Pattern.complete]
    rw [hcmp]
    show lineOf (decodeRuns [0] true) (o + k) x = _
    have : decodeRuns [0] true = [] := by simp [decodeRuns]
    rw [this, lineOf_nil]
    rw [lineOf_all_false _ _ _ (fun b hb => (List.eq_of_mem_replicate hb))]
  | cons b rest =>
    have hb : b = true := by
      have := dropWhile_head_not _ l b rest hd
      simpa using this
    subst hb
    have hl : l = List.replicate k false ++ (true :: rest) := by
      rw [← htw, ← hd]
      exact hsplit.symm
    rw [hl, insertAll_append, insertAll_replicate_false]
    have hio : insOff (Pattern.mk [] (o + k) 0) true 1 = Pattern.mk [] (o + k) 1 := by
      rw [insOff, insert_noflush _ _ _ (by simp) (by simp)]
      rfl
    show decodeFun ((insertAll rest (insOff (Pattern.mk [] (o + k) 0) true 1)).complete) x = _
    rw [hio]
    rw [insertAll_complete_decode rest (Pattern.mk [] (o + k) 1) (by simp [fresh]) x]
    have hc : contentOf (Pattern.mk [] (o + k) 1) = [true] := by
      simp [contentOf, decodeRuns]
    rw [hc, lineOf_replicate_false_append]
    rfl

/-! ## Builder well-formedness: run entries are positive -/

/-- Invariant of every builder state reachable through `insert` with
positive step counts: all closed runs are positive, and a run is in
progress whenever one has been closed. -/
def Good (p : Pattern) : Prop :=
  (∀ r ∈ p.runs, 1 ≤ r) ∧ (p.runs ≠ [] → 1 ≤ p.count)

theorem good_empty (o : ℤ) : Good (Pattern.mk [] o 0) :=
  ⟨by simp, by simp⟩

theorem good_insert (p : Pattern) (b : Bool) (k : ℕ) (hg : Good p) (hk : 1 ≤ k) :
    Good (p.insert b k) := by
  by_cases hnd : p.runs = [] ∧ p.count = 0 ∧ b = false
  · unfold Pattern.insert
    rw [if_pos hnd]
    exact hg
  · by_cases hfl : (p.runs.length % 2 = 0 ∧ b = false) ∨ (¬p.runs.length % 2 = 0 ∧ b = true)
    · rw [insert_flush p b k hnd hfl]
      have hcnt : 1 ≤ p.count := by
        cases hr : p.runs with
        | nil =>
          rcases hfl with ⟨_, hb⟩ | ⟨ho, _⟩
          · rcases Nat.eq_zero_or_pos p.count with hc | hc
            · exact absurd ⟨hr, hc, hb⟩ hnd
            · exact hc
          · rw [hr] at ho; simp at ho
        | cons a t =>
          exact hg.2 (by rw [hr]; simp)
      constructor
      · intro r hr
        rcases List.mem_append.mp hr with hr | hr
        · exact hg.1 r hr
        · rw [List.mem_singleton.mp hr]; exact hcnt
      · intro _
        exact hk
    · rw [insert_noflush p b k hnd hfl]
      exact ⟨hg.1, fun _ => by show 1 ≤ p.count + k; omega⟩

theorem good_insOff (p : Pattern) (b : Bool) (k : ℕ) (hg : Good p) (hk : 1 ≤ k) :
    Good (insOff p b k) := by
  have hg1 := good_insert p b k hg hk
  show Good (if (p.insert b k).runs = [] ∧ (p.insert b k).count = 0 then
    Pattern.mk (p.insert b k).runs ((p.insert b k).offset + k) (p.insert b k).count
    else p.insert b k)
  split
  · exact ⟨hg1.1, hg1.2⟩
  · exact hg1

theorem good_readRun (states : ℕ → Bool) (bit : ℕ) :
    ∀ (r buffer : ℕ) (p : Pattern), Good p → Good ((readRun states bit r buffer p).2) := by
  intro r
  induction r with
  | zero => intro buffer p hg; exact hg
  | succ r ih =>
    intro buffer p hg
    show Good ((if bit + push buffer bit = 0 ∨ bit + push buffer bit = 32 then
        (push buffer bit, insOff p (states (push buffer bit)) (r + 1))
      else readRun states bit r (push buffer bit) (insOff p (states (push buffer bit)) 1)).2)
    split
    · exact good_insOff _ _ _ hg (by omega)
    · exact ih _ _ (good_insOff _ _ _ hg (by omega))

theorem good_readRuns (states : ℕ → Bool) :
    ∀ (runs : List ℕ) (bit buffer : ℕ) (p : Pattern), Good p →
      Good ((readRuns states runs bit buffer p).2) := by
  intro runs
  induction runs with
  | nil => intro bit buffer p hg; exact hg
  | cons run rest ih =>
    intro bit buffer p hg
    exact ih _ _ _ (good_readRun states bit run buffer p hg)

theorem good_drain (states : ℕ → Bool) :
    ∀ (fuel buffer : ℕ) (p : Pattern), Good p → Good (drain states fuel buffer p) := by
  intro fuel
  induction fuel with
  | zero => intro buffer p hg; exact hg
  | succ fuel ih =>
    intro buffer p hg
    show Good (if buffer = 0 then p else
      drain states fuel (drainStep buffer) (p.insert (states (drainStep buffer)) 1))
    split
    · exact hg
    · exact ih _ _ (good_insert _ _ _ hg (by omega))

theorem decode_at_offset (h : ℕ) (t : List ℕ) (off : ℤ) (c : ℕ) (hh : 1 ≤ h) :
    decodeFun (Pattern.mk (h :: t) off c) off = true := by
  unfold decodeFun
  rw [lineOf_nonneg _ _ _ le_rfl]
  have hz : (off - off).toNat = 0 := by omega
  rw [hz]
  cases h with
  | zero => omega
  | succ m =>
    have : decodeRuns ((m + 1) :: t) true = true :: (List.replicate m true ++ decodeRuns t false) := by
      simp [decodeRuns, List.replicate_succ]
    rw [this]
    rfl

theorem complete_good (p : Pattern) (hg : Good p) :
    (p.complete).runs ≠ [] ∧
      ((p.complete).runs.headI = 0 ↔ ∀ x, decodeFun (p.complete) x = false) := by
  unfold Pattern.complete
  by_cases hf : p.runs.length % 2 = 0
  · rw [if_pos hf]
    rcases hr : p.runs with _ | ⟨a, t⟩
    · simp only [List.nil_append]
      rcases hc : p.count with _ | m

      · refine ⟨by simp, iff_of_true rfl ?_⟩
        intro x
        show lineOf (decodeRuns [0] true) p.offset x = false
        have : decodeRuns [0] true = [] := by simp [decodeRuns]
        rw [this, lineOf_nil]
      · refine ⟨by simp, iff_of_false (by simp) ?_⟩
        intro hall
        have h1 := hall p.offset
        rw [decode_at_offset (m + 1) [] p.offset 0 (by omega)] at h1
        simp at h1
    · have ha : 1 ≤ a := hg.1 a (by rw [hr]; exact List.mem_cons_self a t)
      refine ⟨by simp, iff_of_false (by simp; omega) ?_⟩
      intro hall
      have h1 := hall p.offset
      simp only [List.cons_append] at h1
      rw [decode_at_offset a (t ++ [p.count]) p.offset 0 ha] at h1
      simp at h1
  · rw [if_neg hf]
    rcases hr : p.runs with _ | ⟨a, t⟩
    · rw [hr] at hf; simp at hf
    · have ha : 1 ≤ a := hg.1 a (by rw [hr]; exact List.mem_cons_self a t)
      refine ⟨by simp, iff_of_false (by simp; omega) ?_⟩
      intro hall
      have h1 := hall p.offset
      have h2 : decodeFun p p.offset = decodeFun (Pattern.mk (a :: t) p.offset 0) p.offset := by
        unfold decodeFun
        rw [hr]
      rw [h2, decode_at_offset a t p.offset 0 ha] at h1
      simp at h1

theorem toPatternGo_good : ∀ (cs : List Char) (p : Pattern) (q : Pattern), Good p →
    toPatternGo cs p = Except.ok q →
    q.runs ≠ [] ∧ (q.runs.headI = 0 ↔ ∀ x, decodeFun q x = false) := by
  intro cs
  induction cs with
  | nil =>
    intro p q hg h
    have : p.complete = q := Except.ok.inj h
    rw [← this]
    exact complete_good p hg
  | cons c cs ih =>
    intro p q hg h
    rw [toPatternGo] at h
    split at h
    · exact absurd h (by simp)
    · exact ih _ q (good_insert p _ 1 hg le_rfl) h

/-- **C10.** Every output of `read`, and every pattern successfully
returned by `toPattern`, has a non-empty `runs` list whose first entry is
zero exactly when the pattern has no filled cells; hence `solve`'s
`runs[0]` access on each evolved pattern never fails. -/
theorem read_toPattern_first_run (p : Pattern) (states : ℕ → Bool) (s : List Char)
    (q : Pattern) (hq : toPattern s = Except.ok q) :
    ((read p states).runs ≠ [] ∧
      ((read p states).runs.headI = 0 ↔ ∀ x, decodeFun (read p states) x = false)) ∧
    (q.runs ≠ [] ∧ (q.runs.headI = 0 ↔ ∀ x, decodeFun q x = false)) := by
  constructor
  · exact complete_good _ (good_drain states 6 _ _
      (good_readRuns states p.runs 1 0 _ (good_empty (p.offset - 2))))
  · exact toPatternGo_good s (Pattern.mk [] 0 0) q (good_empty 0) hq

/-- Witness for `read_toPattern_first_run` at the pattern parsed from
`"#"`. -/
theorem read_toPattern_first_run_witness :
    toPattern "#".toList = Except.ok (Pattern.mk [1] 0 0) ∧
    (((read (Pattern.mk [1] 0 0) calculateStates).runs ≠ [] ∧
      ((read (Pattern.mk [1] 0 0) calculateStates).runs.headI = 0 ↔
        ∀ x, decodeFun (read (Pattern.mk [1] 0 0) calculateStates) x = false)) ∧
    ((Pattern.mk [1] 0 0).runs ≠ [] ∧
      ((Pattern.mk [1] 0 0).runs.headI = 0 ↔ ∀ x, decodeFun (Pattern.mk [1] 0 0) x = false))) :=
  ⟨rfl, read_toPattern_first_run (Pattern.mk [1] 0 0) calculateStates "#".toList
    (Pattern.mk [1] 0 0) rfl⟩

/-! ## The run-skip shortcut is equivalent to bit-by-bit simulation -/

theorem insOff_disregard (p : Pattern) (k : ℕ) (h1 : p.runs = []) (h2 : p.count = 0) :
    insOff p false k = Pattern.mk [] (p.offset + k) 0 := by
  show (if (p.insert false k).runs = [] ∧ (p.insert false k).count = 0 then
    Pattern.mk (p.insert false k).runs ((p.insert false k).offset + k) (p.insert false k).count
    else p.insert false k) = _
  rw [insert_disregard p k h1 h2, if_pos ⟨h1, h2⟩, h1, h2]

theorem insOff_of_not_fresh_result (p : Pattern) (v : Bool) (k : ℕ)
    (h : ¬fresh (p.insert v k)) : insOff p v k = p.insert v k := by
  show (if (p.insert v k).runs = [] ∧ (p.insert v k).count = 0 then
    Pattern.mk (p.insert v k).runs ((p.insert v k).offset + k) (p.insert v k).count
    else p.insert v k) = _
  exact if_neg h

theorem insert_result_nonfresh (p : Pattern) (v : Bool) (k : ℕ) (hk : 1 ≤ k)
    (hnd : ¬(p.runs = [] ∧ p.count = 0 ∧ v = false)) : ¬fresh (p.insert v k) := by
  by_cases hfl : (p.runs.length % 2 = 0 ∧ v = false) ∨ (¬p.runs.length % 2 = 0 ∧ v = true)
  · rw [insert_flush p v k hnd hfl]
    intro hf
    exact List.append_ne_nil_of_right_ne_nil p.runs (by simp) hf.1
  · rw [insert_noflush p v k hnd hfl]
    intro hf
    have h2 : p.count + k = 0 := hf.2
    omega

theorem insert_merge (p : Pattern) (v : Bool) (a b : ℕ)
    (hnd : ¬(p.runs = [] ∧ p.count = 0 ∧ v = false)) :
    (p.insert v a).insert v b = p.insert v (a + b) := by
  by_cases hfl : (p.runs.length % 2 = 0 ∧ v = false) ∨ (¬p.runs.length % 2 = 0 ∧ v = true)
  · rw [insert_flush p v a hnd hfl, insert_flush p v (a + b) hnd hfl]
    have hq_nd : ¬((Pattern.mk (p.runs ++ [p.count]) p.offset a).runs = [] ∧
        (Pattern.mk (p.runs ++ [p.count]) p.offset a).count = 0 ∧ v = false) := by
      intro hh
      exact List.append_ne_nil_of_right_ne_nil p.runs (by simp) hh.1
    have hq_nfl : ¬(((Pattern.mk (p.runs ++ [p.count]) p.offset a).runs.length % 2 = 0 ∧ v = false) ∨
        (¬(Pattern.mk (p.runs ++ [p.count]) p.offset a).runs.length % 2 = 0 ∧ v = true)) := by
      intro hcon
      have hlen : (Pattern.mk (p.runs ++ [p.count]) p.offset a).runs.length
          = p.runs.length + 1 := by simp
      rcases hfl with ⟨he, hv⟩ | ⟨ho, hv⟩ <;> rcases hcon with ⟨he2, hv2⟩ | ⟨ho2, hv2⟩ <;>
        rw [hlen] at * <;> first
        | omega
        | (rw [hv] at hv2; exact absurd hv2 (by decide))
    rw [insert_noflush _ v b hq_nd hq_nfl]
  · rw [insert_noflush p v a hnd hfl, insert_noflush p v (a + b) hnd hfl]
    have hq_nd : ¬((Pattern.mk p.runs p.offset (p.count + a)).runs = [] ∧
        (Pattern.mk p.runs p.offset (p.count + a)).count = 0 ∧ v = false) := by
      intro hh
      have h2 : p.count + a = 0 := hh.2.1
      exact hnd ⟨hh.1, by omega, hh.2.2⟩
    rw [insert_noflush _ v b hq_nd hfl]
    show Pattern.mk p.runs p.offset (p.count + a + b) = Pattern.mk p.runs p.offset (p.count + (a + b))
    congr 1
    omega

theorem insOff_merge (p : Pattern) (v : Bool) (a b : ℕ) (ha : 1 ≤ a) (hb : 1 ≤ b) :
    insOff (insOff p v a) v b = insOff p v (a + b) := by
  by_cases hd : p.runs = [] ∧ p.count = 0 ∧ v = false
  · obtain ⟨h1, h2, hv⟩ := hd
    subst hv
    rw [insOff_disregard p a h1 h2, insOff_disregard _ b rfl rfl,
      insOff_disregard p (a + b) h1 h2]
    congr 1
    push_cast
    ring
  · have hra := insert_result_nonfresh p v a ha hd
    rw [insOff_of_not_fresh_result p v a hra]
    have hrab := insert_result_nonfresh p v (a + b) (by omega) hd
    rw [insOff_of_not_fresh_result p v (a + b) hrab]
    have hnd2 : ¬((p.insert v a).runs = [] ∧ (p.insert v a).count = 0 ∧ v = false) :=
      fun hh => hra ⟨hh.1, hh.2.1⟩
    have hrb := insert_result_nonfresh (p.insert v a) v b hb hnd2
    rw [insOff_of_not_fresh_result _ v b hrb]
    exact insert_merge p v a b hd

theorem readRunNaive_absorb (states : ℕ → Bool) (bit B : ℕ) (hB : push B bit = B) :
    ∀ (r : ℕ) (q : Pattern) (c : ℕ), 1 ≤ c →
      readRunNaive states bit r B (insOff q (states B) c) = (B, insOff q (states B) (c + r)) := by
  intro r
  induction r with
  | zero => intro q c _; rfl
  | succ r ih =>
    intro q c hc
    show readRunNaive states bit r (push B bit)
        (insOff (insOff q (states B) c) (states (push B bit)) 1) = _
    rw [hB, insOff_merge q (states B) c 1 hc le_rfl, ih q (c + 1) (by omega)]
    have : c + 1 + r = c + (r + 1) := by omega
    rw [this]

theorem readRun_eq_naive (states : ℕ → Bool) (bit : ℕ) (hbit : bit ≤ 1) :
    ∀ (r buffer : ℕ) (p : Pattern),
      readRun states bit r buffer p = readRunNaive states bit r buffer p := by
  intro r
  induction r with
  | zero => intro buffer p; rfl
  | succ r ih =>
    intro buffer p
    show (if bit + push buffer bit = 0 ∨ bit + push buffer bit = 32 then
        (push buffer bit, insOff p (states (push buffer bit)) (r + 1))
      else readRun states bit r (push buffer bit) (insOff p (states (push buffer bit)) 1)) =
      readRunNaive states bit r (push buffer bit) (insOff p (states (push buffer bit)) 1)
    by_cases habs : bit + push buffer bit = 0 ∨ bit + push buffer bit = 32
    · rw [if_pos habs]
      have hb31 : push buffer bit ≤ 31 := Nat.and_le_right
      have hfix : push (push buffer bit) bit = push buffer bit := by
        rcases habs with h0 | h32
        · have hbit0 : bit = 0 := by omega
          have hbuf0 : push buffer bit = 0 := by omega
          rw [hbuf0, hbit0]
          decide
        · have hbit1 : bit = 1 := by omega
          have hbuf31 : push buffer bit = 31 := by omega
          rw [hbuf31, hbit1]
          decide
      rw [readRunNaive_absorb states bit (push buffer bit) hfix r p 1 le_rfl]
      have : 1 + r = r + 1 := by omega
      rw [this]
    · rw [if_neg habs]
      exact ih (push buffer bit) (insOff p (states (push buffer bit)) 1)

theorem readRuns_eq_naive (states : ℕ → Bool) :
    ∀ (runs : List ℕ) (bit : ℕ), bit ≤ 1 → ∀ (buffer : ℕ) (p : Pattern),
      readRuns states runs bit buffer p = readRunsNaive states runs bit buffer p := by
  intro runs
  induction runs with
  | nil => intro bit _ buffer p; rfl
  | cons run rest ih =>
    intro bit hbit buffer p
    show readRuns states rest ((bit + 1) % 2) (readRun states bit run buffer p).1
        (readRun states bit run buffer p).2 = readRunsNaive states rest ((bit + 1) % 2)
        (readRunNaive states bit run buffer p).1 (readRunNaive states bit run buffer p).2
    rw [readRun_eq_naive states bit hbit run buffer p]
    exact ih ((bit + 1) % 2) (by omega) _ _

theorem read_eq_readNaive (p : Pattern) (states : ℕ → Bool) :
    read p states = readNaive p states := by
  show (drain states 6 (readRuns states p.runs 1 0 (Pattern.mk [] (p.offset - 2) 0)).1
      (readRuns states p.runs 1 0 (Pattern.mk [] (p.offset - 2) 0)).2).complete =
    (drain states 6 (readRunsNaive states p.runs 1 0 (Pattern.mk [] (p.offset - 2) 0)).1
      (readRunsNaive states p.runs 1 0 (Pattern.mk [] (p.offset - 2) 0)).2).complete
  rw [readRuns_eq_naive states p.runs 1 (by omega) 0 (Pattern.mk [] (p.offset - 2) 0)]

/-- **C3.** For every pattern, evolving with the run-skip shortcut
(`read`) produces a pattern with the same runs and the same offset as the
bit-by-bit simulation without the shortcut (`readNaive`). -/
theorem read_skip_equivalence (p : Pattern) (states : ℕ → Bool) :
    (read p states).runs = (readNaive p states).runs ∧
    (read p states).offset = (readNaive p states).offset := by
  rw [read_eq_readNaive p states]
  exact ⟨rfl, rfl⟩

/-! ## Decomposing the evolver into output stream and builder -/

theorem feed_eq (states : ℕ → Bool) :
    ∀ (s : List Bool) (buffer : ℕ) (p : Pattern),
      feed states s buffer p = (pushAll buffer s, insertAll (outs states buffer s) p) := by
  intro s
  induction s with
  | nil => intro buffer p; rfl
  | cons b t ih =>
    intro buffer p
    show feed states t (push buffer (bitVal b)) (insOff p (states (push buffer (bitVal b))) 1) = _
    rw [ih]
    rfl

theorem feed_append (states : ℕ → Bool) :
    ∀ (s t : List Bool) (buffer : ℕ) (p : Pattern),
      feed states (s ++ t) buffer p = feed states t (feed states s buffer p).1 (feed states s buffer p).2 := by
  intro s
  induction s with
  | nil => intro t buffer p; rfl
  | cons b s ih =>
    intro t buffer p
    show feed states (s ++ t) (push buffer (bitVal b)) (insOff p (states (push buffer (bitVal b))) 1) = _
    rw [ih]
    rfl

theorem readRunNaive_eq_feed (states : ℕ → Bool) (bit : ℕ) (hbit : bit ≤ 1) :
    ∀ (r buffer : ℕ) (p : Pattern),
      readRunNaive states bit r buffer p = feed states (List.replicate r (bit == 1)) buffer p := by
  have hbv : bitVal (bit == 1) = bit := by
    interval_cases bit <;> rfl
  intro r
  induction r with
  | zero => intro buffer p; rfl
  | succ r ih =>
    intro buffer p
    rw [List.replicate_succ]
    show readRunNaive states bit r (push buffer bit) (insOff p (states (push buffer bit)) 1) =
      feed states (List.replicate r (bit == 1)) (push buffer (bitVal (bit == 1)))
        (insOff p (states (push buffer (bitVal (bit == 1)))) 1)
    rw [hbv, ih]

theorem readRunsNaive_eq_feed (states : ℕ → Bool) :
    ∀ (runs : List ℕ) (bit : ℕ), bit ≤ 1 → ∀ (buffer : ℕ) (p : Pattern),
      readRunsNaive states runs bit buffer p = feed states (decodeRuns runs (bit == 1)) buffer p := by
  intro runs
  induction runs with
  | nil => intro bit _ buffer p; rfl
  | cons run rest ih =>
    intro bit hbit buffer p
    have hflip : (((bit + 1) % 2) == 1) = !(bit == 1) := by
      interval_cases bit <;> rfl
    show readRunsNaive states rest ((bit + 1) % 2) (readRunNaive states bit run buffer p).1
        (readRunNaive states bit run buffer p).2 =
      feed states (List.replicate run (bit == 1) ++ decodeRuns rest (!(bit == 1))) buffer p
    rw [feed_append, ← readRunNaive_eq_feed states bit hbit run buffer p,
      ih ((bit + 1) % 2) (by omega), hflip]

theorem drain_eq_plainAll (states : ℕ → Bool) :
    ∀ (fuel buffer : ℕ) (p : Pattern),
      drain states fuel buffer p = plainAll (drainOuts states fuel buffer) p := by
  intro fuel
  induction fuel with
  | zero => intro buffer p; rfl
  | succ fuel ih =>
    intro buffer p
    show (if buffer = 0 then p
        else drain states fuel (drainStep buffer) (p.insert (states (drainStep buffer)) 1)) =
      plainAll (if buffer = 0 then []
        else states (drainStep buffer) :: drainOuts states fuel (drainStep buffer)) p
    split
    · rfl
    · rw [ih]
      rfl

/-! ## Freshness transport through the builder -/

theorem insOff_true_nonfresh (p : Pattern) : ¬fresh (insOff p true 1) := by
  have hnd : ¬(p.runs = [] ∧ p.count = 0 ∧ true = false) := by simp
  have h := insert_result_nonfresh p true 1 le_rfl hnd
  rw [insOff_of_not_fresh_result p true 1 h]
  exact h

theorem insertAll_nonfresh : ∀ (l : List Bool) (p : Pattern), ¬fresh p →
    ¬fresh (insertAll l p) := by
  intro l
  induction l with
  | nil => intro p h; exact h
  | cons b t ih =>
    intro p h
    show ¬fresh (insertAll t (insOff p b 1))
    rw [insOff_nonfresh p b h]
    exact ih _ (insert_nonfresh p b 1 h)

theorem insertAll_nonfresh_of_mem_true : ∀ (l : List Bool) (p : Pattern), true ∈ l →
    ¬fresh (insertAll l p) := by
  intro l
  induction l with
  | nil => intro p h; simp at h
  | cons b t ih =>
    intro p h
    rcases List.mem_cons.mp h with hb | ht
    · rw [← hb]
      show ¬fresh (insertAll t (insOff p true 1))
      exact insertAll_nonfresh t _ (insOff_true_nonfresh p)
    · exact ih (insOff p b 1) ht

theorem plainAll_eq_insertAll_of_nonfresh : ∀ (l : List Bool) (p : Pattern), ¬fresh p →
    plainAll l p = insertAll l p := by
  intro l
  induction l with
  | nil => intro p _; rfl
  | cons b t ih =>
    intro p h
    show plainAll t (p.insert b 1) = insertAll t (insOff p b 1)
    rw [insOff_nonfresh p b h]
    exact ih _ (insert_nonfresh p b 1 h)

theorem plainAll_all_false_on_fresh : ∀ (l : List Bool) (o : ℤ),
    (∀ b ∈ l, b = false) → plainAll l (Pattern.mk [] o 0) = Pattern.mk [] o 0 := by
  intro l
  induction l with
  | nil => intro o _; rfl
  | cons b t ih =>
    intro o h
    have hb : b = false := h b (List.mem_cons_self b t)
    subst hb
    show plainAll t ((Pattern.mk [] o 0).insert false 1) = _
    rw [insert_disregard _ 1 rfl rfl]
    exact ih o (fun c hc => h c (List.mem_cons_of_mem _ hc))

/-! ## Buffer values reachable while all outputs are blank -/

theorem sgood_zero : SGood 0 := by decide

theorem sgood_step (w : ℕ) (hw : SGood w) (b : Bool)
    (hcs : calculateStates (push w (bitVal b)) = false) : SGood (push w (bitVal b)) := by
  rcases hw with rfl | rfl | rfl | rfl | rfl | rfl | rfl <;> cases b <;> revert hcs <;> decide

theorem sgood_pushAll : ∀ (s : List Bool) (w : ℕ), SGood w →
    (∀ b ∈ outs calculateStates w s, b = false) → SGood (pushAll w s) := by
  intro s
  induction s with
  | nil => intro w hw _; exact hw
  | cons b t ih =>
    intro w hw hout
    have h1 : calculateStates (push w (bitVal b)) = false :=
      hout _ (List.mem_cons_self _ _)
    have h2 : ∀ c ∈ outs calculateStates (push w (bitVal b)) t, c = false :=
      fun c hc => hout c (List.mem_cons_of_mem _ hc)
    exact ih (push w (bitVal b)) (sgood_step w hw b h1) h2

theorem sgood_drain_tail (w : ℕ) (hw : SGood w) :
    ∀ b ∈ (drainOuts calculateStates 6 w).tail, b = false := by
  rcases hw with rfl | rfl | rfl | rfl | rfl | rfl | rfl <;> decide

/-! ## Window arithmetic -/

theorem bitVal_le_one (b : Bool) : bitVal b ≤ 1 := by cases b <;> decide

theorem windowVal_lt (f : ℤ → Bool) (x : ℤ) : windowVal f x < 32 := by
  unfold windowVal
  have h1 := bitVal_le_one (f (x - 2))
  have h2 := bitVal_le_one (f (x - 1))
  have h3 := bitVal_le_one (f x)
  have h4 := bitVal_le_one (f (x + 1))
  have h5 := bitVal_le_one (f (x + 2))
  omega

theorem windowVal_congr (f g : ℤ → Bool) (x : ℤ)
    (h : ∀ y, x - 2 ≤ y → y ≤ x + 2 → f y = g y) : windowVal f x = windowVal g x := by
  unfold windowVal
  rw [h (x - 2) (by omega) (by omega), h (x - 1) (by omega) (by omega),
    h x (by omega) (by omega), h (x + 1) (by omega) (by omega),
    h (x + 2) (by omega) (by omega)]

theorem windowVal_zero (f : ℤ → Bool) (x : ℤ)
    (h : ∀ y, x - 2 ≤ y → y ≤ x + 2 → f y = false) : windowVal f x = 0 := by
  unfold windowVal
  rw [h (x - 2) (by omega) (by omega), h (x - 1) (by omega) (by omega),
    h x (by omega) (by omega), h (x + 1) (by omega) (by omega),
    h (x + 2) (by omega) (by omega)]
  rfl

theorem windowVal_slide (f : ℤ → Bool) (x : ℤ) :
    windowVal f (x + 1) = (2 * windowVal f x) % 32 + bitVal (f (x + 3)) := by
  unfold windowVal
  have e1 : x + 1 - 2 = x - 1 := by ring
  have e2 : x + 1 - 1 = x := by ring
  have e3 : x + 1 + 1 = x + 2 := by ring
  have e4 : x + 1 + 2 = x + 3 := by ring
  rw [e1, e2, e3, e4]
  have h1 := bitVal_le_one (f (x - 2))
  have h2 := bitVal_le_one (f (x - 1))
  have h3 := bitVal_le_one (f x)
  have h4 := bitVal_le_one (f (x + 1))
  have h5 := bitVal_le_one (f (x + 2))
  have h6 := bitVal_le_one (f (x + 3))
  omega

theorem push_eq_mod : ∀ v < 32, ∀ c < 2, push v c = (2 * v + c) % 32 := by decide

theorem drainStep_eq_mod : ∀ v < 32, drainStep v = (2 * v) % 32 := by decide

theorem pushAll_append (buffer : ℕ) (s t : List Bool) :
    pushAll buffer (s ++ t) = pushAll (pushAll buffer s) t :=
  List.foldl_append _ _ _ _

theorem pushAll_lt : ∀ (s : List Bool) (buffer : ℕ), buffer < 32 → pushAll buffer s < 32 := by
  intro s
  induction s with
  | nil => intro buffer h; exact h
  | cons b t ih =>
    intro buffer _
    have h1 : push buffer (bitVal b) ≤ 31 := Nat.and_le_right
    exact ih (push buffer (bitVal b)) (by omega)

theorem lineOf_beyond (l : List Bool) (o x : ℤ) (h : o + l.length ≤ x) :
    lineOf l o x = false := by
  rw [lineOf_nonneg _ _ _ (by omega)]
  exact List.getD_eq_default l false (by omega)

theorem getD_take (s : List Bool) : ∀ (j i : ℕ), i < j →
    (s.take j).getD i false = s.getD i false := by
  induction s with
  | nil => intro j i _; simp
  | cons a t ih =>
    intro j i hij
    cases j with
    | zero => omega
    | succ j =>
      cases i with
      | zero => rfl
      | succ i =>
        show (a :: t.take j).getD (i + 1) false = (a :: t).getD (i + 1) false
        rw [List.getD_cons_succ, List.getD_cons_succ]
        exact ih j i (by omega)

theorem lineOf_take (s : List Bool) (j : ℕ) (o x : ℤ) (hx : x < o + j) :
    lineOf (s.take j) o x = lineOf s o x := by
  by_cases h1 : x < o
  · rw [lineOf_neg _ _ _ h1, lineOf_neg _ _ _ h1]
  · rw [lineOf_nonneg _ _ _ (by omega), lineOf_nonneg _ _ _ (by omega)]
    exact getD_take s j (x - o).toNat (by omega)

theorem pushAll_windowVal (s : List Bool) (off : ℤ) :
    pushAll 0 s = windowVal (lineOf s off) (off + s.length - 3) := by
  induction s using List.reverseRecOn with
  | nil =>
    have hz : windowVal (lineOf [] off) (off + ([] : List Bool).length - 3) = 0 :=
      windowVal_zero _ _ (fun y _ _ => lineOf_nil off y)
    rw [hz]
    rfl
  | append_singleton s b ih =>
    rw [pushAll_append]
    show push (pushAll 0 s) (bitVal b) = _
    rw [ih]
    have hW : windowVal (lineOf s off) (off + s.length - 3) < 32 := windowVal_lt _ _
    rw [push_eq_mod _ hW (bitVal b) (by cases b <;> decide)]
    have hcell : ∀ y, y < off + s.length → lineOf (s ++ [b]) off y = lineOf s off y := by
      intro y hy
      by_cases hneg : y < off
      · rw [lineOf_neg _ _ _ hneg, lineOf_neg _ _ _ hneg]
      · rw [lineOf_nonneg _ _ _ (by omega), lineOf_nonneg _ _ _ (by omega)]
        exact List.getD_append s [b] false _ (by omega)
    have hnew : lineOf (s ++ [b]) off (off + s.length) = b := by
      rw [lineOf_nonneg _ _ _ (by omega)]
      rw [List.getD_append_right s [b] false _ (by omega)]
      have : (off + (s.length : ℤ) - off).toNat - s.length = 0 := by omega
      rw [this]
      rfl
    have hwc : windowVal (lineOf (s ++ [b]) off) (off + s.length - 3) =
        windowVal (lineOf s off) (off + s.length - 3) :=
      windowVal_congr _ _ _ (fun y _ hy2 => hcell y (by omega))
    have hslide := windowVal_slide (lineOf (s ++ [b]) off) (off + s.length - 3)
    rw [hwc, show off + (s.length : ℤ) - 3 + 3 = off + s.length from by ring, hnew] at hslide
    have hc : off + ((s ++ [b]).length : ℤ) - 3 = off + s.length - 3 + 1 := by
      simp
      omega
    rw [hc, hslide]
    have hmod : (2 * windowVal (lineOf s off) (off + s.length - 3)) % 32 ≤ 30 := by omega
    have hb := bitVal_le_one b
    omega

theorem outs_length (states : ℕ → Bool) :
    ∀ (s : List Bool) (buffer : ℕ), (outs states buffer s).length = s.length := by
  intro s
  induction s with
  | nil => intro buffer; rfl
  | cons b t ih =>
    intro buffer
    show (states (push buffer (bitVal b)) :: outs states (push buffer (bitVal b)) t).length = t.length + 1
    rw [List.length_cons, ih]

theorem outs_getD (states : ℕ → Bool) :
    ∀ (s : List Bool) (buffer j : ℕ), j < s.length →
      (outs states buffer s).getD j false = states (pushAll buffer (s.take (j + 1))) := by
  intro s
  induction s with
  | nil => intro buffer j h; simp at h
  | cons b t ih =>
    intro buffer j h
    cases j with
    | zero => rfl
    | succ j =>
      show (states (push buffer (bitVal b)) :: outs states (push buffer (bitVal b)) t).getD (j + 1) false = _
      rw [List.getD_cons_succ, ih (push buffer (bitVal b)) j (by simpa using h)]
      rfl

theorem windowVal_zero_chain (f : ℤ → Bool) (c : ℤ) (h0 : windowVal f c = 0)
    (hbeyond : ∀ y, c + 2 < y → f y = false) : ∀ k : ℕ, windowVal f (c + 1 + k) = 0 := by
  intro k
  induction k with
  | zero =>
    have hs := windowVal_slide f c
    rw [h0, hbeyond (c + 3) (by omega)] at hs
    simpa [bitVal] using hs
  | succ k ihk =>
    have hs := windowVal_slide f (c + 1 + k)
    rw [ihk, hbeyond (c + 1 + k + 3) (by omega)] at hs
    rw [show ((k + 1 : ℕ) : ℤ) = (k : ℤ) + 1 from by push_cast; ring,
      show c + 1 + ((k : ℤ) + 1) = c + 1 + k + 1 from by ring]
    simpa [bitVal] using hs

theorem drainOuts_pad (f : ℤ → Bool) :
    ∀ (fuel v : ℕ) (c : ℤ), v < 32 → (2 ^ fuel * v) % 32 = 0 →
      v = windowVal f c → (∀ y, c + 2 < y → f y = false) →
      ∀ k : ℕ, (drainOuts calculateStates fuel v).getD k false =
        calculateStates (windowVal f (c + 1 + k)) := by
  intro fuel
  induction fuel with
  | zero =>
    intro v c hv hfuel hwin hbeyond k
    have hv0 : v = 0 := by omega
    subst hv0
    show (([] : List Bool)).getD k false = _
    rw [List.getD_nil, windowVal_zero_chain f c hwin.symm hbeyond k]
    decide
  | succ fuel ih =>
    intro v c hv hfuel hwin hbeyond k
    by_cases hv0 : v = 0
    · subst hv0
      show ((if (0 : ℕ) = 0 then ([] : List Bool)
          else calculateStates (drainStep 0) :: drainOuts calculateStates fuel (drainStep 0))).getD k false = _
      rw [if_pos rfl, List.getD_nil, windowVal_zero_chain f c hwin.symm hbeyond k]
      decide
    · show ((if v = 0 then ([] : List Bool)
          else calculateStates (drainStep v) :: drainOuts calculateStates fuel (drainStep v))).getD k false = _
      rw [if_neg hv0]
      have hds : drainStep v = (2 * v) % 32 := drainStep_eq_mod v hv
      have hv' : drainStep v < 32 := by omega
      have hw' : drainStep v = windowVal f (c + 1) := by
        rw [hds, windowVal_slide f c, ← hwin, hbeyond (c + 3) (by omega)]
        simp [bitVal]
      cases k with
      | zero =>
        rw [List.getD_cons_zero, hw']
        norm_num
      | succ k =>
        rw [List.getD_cons_succ]
        have hfuel' : (2 ^ fuel * drainStep v) % 32 = 0 := by
          rw [hds]
          have h1 : (2 ^ fuel * ((2 * v) % 32)) % 32 = (2 ^ fuel * (2 * v)) % 32 :=
            Nat.ModEq.mul_left (2 ^ fuel) (Nat.mod_modEq (2 * v) 32)
          rw [h1, show 2 ^ fuel * (2 * v) = 2 ^ (fuel + 1) * v from by ring]
          exact hfuel
        have hrec := ih (drainStep v) (c + 1) hv' hfuel' hw'
          (fun y hy => hbeyond y (by omega)) k
        rw [hrec, show ((k + 1 : ℕ) : ℤ) = (k : ℤ) + 1 from by push_cast; ring,
          show c + 1 + ((k : ℤ) + 1) = c + 1 + 1 + k from by ring]

/-- The combined feed-and-drain output stream, laid out from position
`off - 2`, is exactly the table applied to the sliding window of the
input line at every position. -/
theorem outSpec (s : List Bool) (off x : ℤ) :
    lineOf (outs calculateStates 0 s ++ drainOuts calculateStates 6 (pushAll 0 s)) (off - 2) x
      = calculateStates (windowVal (lineOf s off) x) := by
  have hB : pushAll 0 s < 32 := pushAll_lt s 0 (by omega)
  by_cases h1 : x < off - 2
  · rw [lineOf_neg _ _ _ h1,
      windowVal_zero _ _ (fun y _ hy2 => lineOf_neg s off y (by omega))]
    decide
  · by_cases h2 : x < off - 2 + s.length
    · rw [lineOf_nonneg _ _ _ (by omega)]
      have hilen : (x - (off - 2)).toNat < s.length := by omega
      rw [List.getD_append _ _ false _ (by rw [outs_length]; omega)]
      rw [outs_getD calculateStates s 0 _ hilen]
      congr 1
      rw [pushAll_windowVal (s.take ((x - (off - 2)).toNat + 1)) off]
      rw [List.length_take, min_eq_left (by omega)]
      have hc : off + (((x - (off - 2)).toNat + 1 : ℕ) : ℤ) - 3 = x := by push_cast; omega
      rw [hc]
      exact windowVal_congr _ _ x
        (fun y hy1 hy2 => lineOf_take s _ off y (by push_cast; omega))
    · rw [lineOf_nonneg _ _ _ (by omega)]
      have hidx : (x - (off - 2)).toNat =
          s.length + (x - (off - 2 + s.length)).toNat := by omega
      rw [hidx, List.getD_append_right _ _ false _ (by rw [outs_length]; omega)]
      have hsub : s.length + (x - (off - 2 + (s.length : ℤ))).toNat -
          (outs calculateStates 0 s).length = (x - (off - 2 + (s.length : ℤ))).toNat := by
        rw [outs_length]; omega
      rw [hsub]
      have hw : pushAll 0 s = windowVal (lineOf s off) (off + s.length - 3) :=
        pushAll_windowVal s off
      have hbey : ∀ y, (off + (s.length : ℤ) - 3) + 2 < y → lineOf s off y = false :=
        fun y hy => lineOf_beyond s off y (by omega)
      have hfuel : (2 ^ 6 * pushAll 0 s) % 32 = 0 := by
        rw [show 2 ^ 6 * pushAll 0 s = 32 * (2 * pushAll 0 s) from by ring]
        exact Nat.mul_mod_right 32 _
      rw [drainOuts_pad (lineOf s off) 6 (pushAll 0 s) (off + s.length - 3) hB hfuel hw hbey _]
      congr 2
      omega

/-- `read` produces exactly the pattern that decodes to the combined
feed-and-drain output stream laid out from `pattern.offset - 2`. -/
theorem read_decode_out (p : Pattern) (x : ℤ) :
    decodeFun (read p calculateStates) x =
      lineOf (outs calculateStates 0 (decodeRuns p.runs true) ++
        drainOuts calculateStates 6 (pushAll 0 (decodeRuns p.runs true))) (p.offset - 2) x := by
  set s := decodeRuns p.runs true with hs
  set o := p.offset - 2 with ho
  set fl := outs calculateStates 0 s with hfl
  set B := pushAll 0 s with hB
  set dl := drainOuts calculateStates 6 B with hdl
  have hread : read p calculateStates =
      (plainAll dl (insertAll fl (Pattern.mk [] o 0))).complete := by
    rw [read_eq_readNaive]
    show (drain calculateStates 6
        (readRunsNaive calculateStates p.runs 1 0 (Pattern.mk [] o 0)).1
        (readRunsNaive calculateStates p.runs 1 0 (Pattern.mk [] o 0)).2).complete = _
    rw [readRunsNaive_eq_feed calculateStates p.runs 1 (by omega) 0 (Pattern.mk [] o 0),
      show ((1 : ℕ) == 1) = true from rfl, feed_eq, drain_eq_plainAll]
  rw [hread]
  by_cases hA : true ∈ fl
  · have hnf : ¬fresh (insertAll fl (Pattern.mk [] o 0)) :=
      insertAll_nonfresh_of_mem_true fl _ hA
    rw [plainAll_eq_insertAll_of_nonfresh dl _ hnf, ← insertAll_append, insertAll_decode]
  · have hallf : ∀ b ∈ fl, b = false := by
      intro b hb
      cases b
      · rfl
      · exact absurd hb hA
    have hrep : fl = List.replicate fl.length false := by
      rw [List.eq_replicate_iff]
      exact ⟨rfl, hallf⟩
    have hins : insertAll fl (Pattern.mk [] o 0) = Pattern.mk [] (o + fl.length) 0 := by
      conv_lhs => rw [hrep]
      exact insertAll_replicate_false fl.length o
    have hemptycase : ∀ hdall : ∀ b ∈ dl, b = false,
        decodeFun ((plainAll dl (insertAll fl (Pattern.mk [] o 0))).complete) x =
          lineOf (fl ++ dl) o x := by
      intro hdall
      rw [hins, plainAll_all_false_on_fresh dl (o + fl.length) hdall]
      rw [show (Pattern.mk [] (o + (fl.length : ℤ)) 0).complete =
        Pattern.mk [0] (o + fl.length) 0 from by simp [Pattern.complete]]
      show lineOf (decodeRuns [0] true) _ x = _
      rw [show decodeRuns [0] true = [] from by simp [decodeRuns], lineOf_nil]
      rw [lineOf_all_false _ _ _ (fun b hb => ?_)]
      rcases List.mem_append.mp hb with hb | hb
      · exact hallf b hb
      · exact hdall b hb
    cases hdlc : dl with
    | nil =>
      rw [← hdlc]
      exact hemptycase (by rw [hdlc]; simp)
    | cons b rest =>
      cases b
      · rw [← hdlc]
        have hsg : SGood B := sgood_pushAll s 0 sgood_zero hallf
        have htail := sgood_drain_tail B hsg
        rw [← hdl, hdlc] at htail
        have halldl : ∀ c ∈ dl, c = false := by
          intro c hc
          rw [hdlc] at hc
          rcases List.mem_cons.mp hc with rfl | hc
          · rfl
          · exact htail c hc
        exact hemptycase halldl
      · rw [← hdlc, hins]
        have hpl : plainAll dl (Pattern.mk [] (o + (fl.length : ℤ)) 0) =
            insertAll dl (Pattern.mk [] (o + (fl.length : ℤ)) 0) := by
          rw [hdlc]
          show plainAll rest ((Pattern.mk [] (o + (fl.length : ℤ)) 0).insert true 1) =
            insertAll rest (insOff (Pattern.mk [] (o + (fl.length : ℤ)) 0) true 1)
          have h1 : (Pattern.mk [] (o + (fl.length : ℤ)) 0).insert true 1 =
              Pattern.mk [] (o + (fl.length : ℤ)) 1 :=
            insert_noflush _ true 1 (by simp) (by simp)
          have h2 : insOff (Pattern.mk [] (o + (fl.length : ℤ)) 0) true 1 =
              Pattern.mk [] (o + (fl.length : ℤ)) 1 := by
            rw [insOff_of_not_fresh_result _ true 1 (by rw [h1]; simp [fresh]), h1]
          rw [h1, h2]
          exact plainAll_eq_insertAll_of_nonfresh rest _ (by simp [fresh])
        rw [hpl, insertAll_decode]
        conv_rhs => rw [hrep]
        rw [lineOf_replicate_false_append]

/-- The semantic correctness of the evolver, shared by the claims about
`read`: the next pattern decodes, at every absolute position, to the
transition table applied to the 5-cell window of the input line centered
there. -/
theorem read_decode (p : Pattern) (x : ℤ) :
    decodeFun (read p calculateStates) x = calculateStates (windowVal (decodeFun p) x) := by
  rw [read_decode_out p x]
  exact outSpec (decodeRuns p.runs true) p.offset x

/-- **C1.** For every pattern and the fixed transition table, `read`
returns the next generation: the returned pattern decodes, at the
positions given by its offset, to exactly the line obtained by decoding
the input at its offset and applying the table's rule to the 5-cell
window centered on every position, cells outside the support being blank
and leading/trailing blanks being trimmed into the offset and the run
list. -/
theorem read_next_generation (p : Pattern) (x : ℤ) :
    decodeFun (read p calculateStates) x = calculateStates (windowVal (decodeFun p) x) :=
  read_decode p x

/-- **C7.** A pattern with no filled cells evolves to a pattern with no
filled cells; in particular the table maps the all-blank window to blank,
so the empty line is absorbing. -/
theorem empty_pattern_absorbing (p : Pattern) (h : ∀ x, decodeFun p x = false) :
    (∀ x, decodeFun (read p calculateStates) x = false) ∧ calculateStates 0 = false := by
  refine ⟨fun x => ?_, by decide⟩
  rw [read_decode p x, windowVal_zero _ _ (fun y _ _ => h y)]
  decide

/-- Witness for `empty_pattern_absorbing` at the degenerate empty
pattern. -/
theorem empty_pattern_absorbing_witness :
    decodeFun (read (Pattern.mk [0] 0 0) calculateStates) 5 = false ∧
      calculateStates 0 = false :=
  ⟨(empty_pattern_absorbing (Pattern.mk [0] 0 0) (fun x => lineOf_nil 0 x)).1 5,
   (empty_pattern_absorbing (Pattern.mk [0] 0 0) (fun x => lineOf_nil 0 x)).2⟩

/-! ## The classifier -/

theorem solveGo_count_le (states : ℕ → Bool) :
    ∀ (fuel : ℕ) (p : Pattern) (lines patterns : List PyObj),
      (solveGo states fuel p lines patterns).2 ≤ fuel := by
  intro fuel
  induction fuel with
  | zero => intro p l pa; exact le_rfl
  | succ fuel ih =>
    intro p l pa
    simp only [solveGo]
    split
    · show 1 ≤ fuel + 1
      omega
    · split
      · show 1 ≤ fuel + 1
        omega
      · split
        · show 1 ≤ fuel + 1
          omega
        · show (solveGo states fuel _ _ _).2 + 1 ≤ fuel + 1
          have := ih (read p states)
            (lineTuple (read p states).offset (read p states).runs :: l)
            (lineTuple 0 (read p states).runs :: pa)
          omega

theorem solveGo_label (states : ℕ → Bool) :
    ∀ (fuel : ℕ) (p : Pattern) (lines patterns : List PyObj),
      (solveGo states fuel p lines patterns).1 = "vanishing" ∨
      (solveGo states fuel p lines patterns).1 = "blinking" ∨
      (solveGo states fuel p lines patterns).1 = "gliding" ∨
      (solveGo states fuel p lines patterns).1 = "other" := by
  intro fuel
  induction fuel with
  | zero => intro p l pa; exact Or.inr (Or.inr (Or.inr rfl))
  | succ fuel ih =>
    intro p l pa
    simp only [solveGo]
    split
    · exact Or.inl rfl
    · split
      · exact Or.inr (Or.inl rfl)
      · split
        · exact Or.inr (Or.inr (Or.inl rfl))
        · exact ih (read p states) _ _

theorem solveGo_other_iff (states : ℕ → Bool) :
    ∀ (fuel : ℕ) (p : Pattern) (lines patterns : List PyObj),
      ((solveGo states fuel p lines patterns).1 = "other" ↔
        triggersWithin states fuel p lines patterns = false) := by
  intro fuel
  induction fuel with
  | zero => intro p l pa; exact iff_of_true rfl rfl
  | succ fuel ih =>
    intro p l pa
    simp only [solveGo, triggersWithin]
    split
    · exact iff_of_false (by decide) (by decide)
    · split
      · exact iff_of_false (by decide) (by decide)
      · split
        · exact iff_of_false (by decide) (by decide)
        · exact ih (read p states) _ _

/-- **C6.** `solve` invokes `read` at most 100 times, always returns one
of the four labels, and returns `other` exactly when none of the
vanish/blink/glide conditions triggers within those 100 generations. -/
theorem solve_bounded_labels (p : Pattern) (states : ℕ → Bool) :
    (solveGo states 100 p (seedSet p.runs) (seedSet p.runs)).2 ≤ 100 ∧
    (solve p states = "vanishing" ∨ solve p states = "blinking" ∨
      solve p states = "gliding" ∨ solve p states = "other") ∧
    (solve p states = "other" ↔
      triggersWithin states 100 p (seedSet p.runs) (seedSet p.runs) = false) :=
  ⟨solveGo_count_le states 100 p (seedSet p.runs) (seedSet p.runs),
   solveGo_label states 100 p (seedSet p.runs) (seedSet p.runs),
   solveGo_other_iff states 100 p (seedSet p.runs) (seedSet p.runs)⟩

/-! ## The drain fuel is immaterial past five iterations -/

theorem drain_zero_buffer (states : ℕ → Bool) :
    ∀ (fuel : ℕ) (p : Pattern), drain states fuel 0 p = p := by
  intro fuel p
  cases fuel with
  | zero => rfl
  | succ fuel =>
    show (if (0 : ℕ) = 0 then p else _) = p
    rw [if_pos rfl]

theorem drain_fuel_of_pow (states : ℕ → Bool) :
    ∀ (n fuel₁ fuel₂ v : ℕ) (p : Pattern), v < 32 → (2 ^ n * v) % 32 = 0 →
      n ≤ fuel₁ → n ≤ fuel₂ → drain states fuel₁ v p = drain states fuel₂ v p := by
  intro n
  induction n with
  | zero =>
    intro f1 f2 v p hv hn _ _
    have hv0 : v = 0 := by omega
    subst hv0
    rw [drain_zero_buffer, drain_zero_buffer]
  | succ n ih =>
    intro f1 f2 v p hv hn h1 h2
    by_cases hv0 : v = 0
    · subst hv0
      rw [drain_zero_buffer, drain_zero_buffer]
    · obtain ⟨g1, rfl⟩ : ∃ g1, f1 = g1 + 1 := ⟨f1 - 1, by omega⟩
      obtain ⟨g2, rfl⟩ : ∃ g2, f2 = g2 + 1 := ⟨f2 - 1, by omega⟩
      show (if v = 0 then p else drain states g1 (drainStep v) (p.insert (states (drainStep v)) 1)) =
        (if v = 0 then p else drain states g2 (drainStep v) (p.insert (states (drainStep v)) 1))
      rw [if_neg hv0, if_neg hv0]
      have hds : drainStep v = (2 * v) % 32 := drainStep_eq_mod v hv
      apply ih
      · omega
      · rw [hds]
        have hmm : (2 ^ n * ((2 * v) % 32)) % 32 = (2 ^ n * (2 * v)) % 32 :=
          Nat.ModEq.mul_left (2 ^ n) (Nat.mod_modEq (2 * v) 32)
        rw [hmm, show 2 ^ n * (2 * v) = 2 ^ (n + 1) * v from by ring]
        exact hn
      · omega
      · omega

/-- With any buffer below 32 (an invariant of `read`), the drain loop
reaches buffer 0 within five iterations, so every fuel of at least 5 —
in particular the fuel 6 used in `read` — computes the same result as the
source's unbounded `while buffer > 0` loop. -/
theorem drain_fuel_stable (states : ℕ → Bool) (v : ℕ) (p : Pattern) (fuel : ℕ)
    (hv : v < 32) (hf : 5 ≤ fuel) : drain states fuel v p = drain states 6 v p :=
  drain_fuel_of_pow states 5 fuel 6 v p hv
    (by rw [show 2 ^ 5 * v = 32 * v from by ring]; exact Nat.mul_mod_right 32 v)
    hf (by omega)
